import Mathlib

/-!
Shallow embedding of the ToothSeeker database logic
(`toothbase.py`, `stackview.py`, `helper_functions.py`).

A database row of the `images` table has an integer primary key `id`,
a unique text `path`, and 32 further columns
(model, viewthresh, viewmode, iter, Egr .. uMgr, faulty).
SQLite values are modelled by `Val`; a row's non-id/path columns are the
list `cols`, indexed in schema order by `paramColumns`.
-/

/-- A SQLite value: INTEGER, REAL or TEXT (all inserted data is non-NULL). -/
inductive Val where
  | intV : Int → Val
  | realV : Rat → Val
  | textV : String → Val
deriving DecidableEq

/-- One row of the `images` table: primary key, path, and the 32 remaining
columns in schema order. -/
structure DBRow where
  id : Nat
  path : String
  cols : List Val
deriving DecidableEq

/-- The `images` table, in insertion (rowid) order. -/
abbrev Table := List DBRow

/-- The column names of the `images` table other than `id` and `path`,
in schema order (`init_db` in toothbase.py). -/
def paramColumns : List String :=
  ["model", "viewthresh", "viewmode", "iter",
   "Egr", "Mgr", "Rep", "Swi", "Adh", "Act", "Inh", "Sec",
   "Da", "Di", "Ds", "Int", "Set", "Boy", "Dff", "Bgr",
   "Abi", "Pbi", "Lbi", "Bbi", "Rad", "Deg", "Dgr", "Ntr",
   "Bwi", "Ina", "uMgr", "faulty"]

/-- Default value used when indexing past a row's column list
(never hit on well-formed rows). -/
def dv : Val := Val.intV 0

/-- Value of the column named `q` in row `r`. -/
def colAt (r : DBRow) (q : String) : Val :=
  r.cols.getD (paramColumns.indexOf q) dv

/-- Minimum of `a :: l` in a linear order (SQL `MIN` aggregate). -/
def listMin {α : Type} [LinearOrder α] : α → List α → α
  | a, [] => a
  | a, b :: l => listMin (min a b) l

theorem listMin_mem {α : Type} [LinearOrder α] (a : α) (l : List α) :
    listMin a l = a ∨ listMin a l ∈ l := by
  induction l generalizing a with
  | nil => exact Or.inl rfl
  | cons b l ih =>
    show listMin (min a b) l = a ∨ listMin (min a b) l ∈ b :: l
    rcases ih (min a b) with h | h
    · rcases min_choice a b with hm | hm
      · exact Or.inl (h.trans hm)
      · exact Or.inr (by rw [h, hm]; exact List.mem_cons_self b l)
    · exact Or.inr (List.mem_cons_of_mem _ h)

theorem listMin_le_head {α : Type} [LinearOrder α] (a : α) (l : List α) :
    listMin a l ≤ a := by
  induction l generalizing a with
  | nil => exact le_refl a
  | cons b l ih => exact le_trans (ih (min a b)) (min_le_left a b)

theorem listMin_le_mem {α : Type} [LinearOrder α] (a : α) (l : List α)
    (x : α) (hx : x ∈ l) : listMin a l ≤ x := by
  induction l generalizing a with
  | nil => cases hx
  | cons b l ih =>
    rcases List.mem_cons.mp hx with h | h
    · subst h
      exact le_trans (listMin_le_head (min a x) l) (min_le_right a x)
    · exact ih (min a b) h

/-- Rows of `t` whose non-id/path columns equal `key`
(one PARTITION / GROUP BY class of `remove_duplicate_images`). -/
def groupRows (t : Table) (key : List Val) : Table :=
  t.filter (fun r => decide (r.cols = key))

/-- `MIN(id)` over the partition of rows with columns `key`
(0 if the partition is empty). -/
def groupMinId (t : Table) (key : List Val) : Nat :=
  match (groupRows t key).map (fun r => r.id) with
  | [] => 0
  | a :: l => listMin a l

/-- Lexicographic comparison of character lists by code point (the order
SQLite's `MIN` uses on TEXT values). -/
def charListLe : List Char → List Char → Bool
  | [], _ => true
  | _ :: _, [] => false
  | a :: as, b :: bs =>
    if a.toNat < b.toNat then true
    else if b.toNat < a.toNat then false
    else charListLe as bs

/-- The smaller of two paths. -/
def pathMin (a b : String) : String :=
  if charListLe a.data b.data then a else b

/-- Minimum of `a :: l` of paths. -/
def listMinPath : String → List String → String
  | a, [] => a
  | a, b :: l => listMinPath (pathMin a b) l

/-- `MIN(path)` over the partition of rows with columns `key`. -/
def groupMinPath (t : Table) (key : List Val) : String :=
  match (groupRows t key).map (fun r => r.path) with
  | [] => ""
  | a :: l => listMinPath a l

/-- `HAVING COUNT(*) > 1`: does the partition `key` hold more than one row? -/
def isDupKey (t : Table) (key : List Val) : Bool :=
  1 < (groupRows t key).length

/-- `SELECT MIN(id) FROM t GROUP BY cols HAVING COUNT(*) > 1`:
the minimum ids of the duplicated partitions. -/
def dupGroupMinIds (t : Table) : List Nat :=
  ((t.map (fun r => r.cols)).filter (fun k => isDupKey t k)).map
    (fun k => groupMinId t k)

/-- The DELETE statement of `remove_duplicate_images`: a row is deleted iff
its column tuple belongs to a duplicated partition and its id is not among
the minimum ids of the duplicated partitions. -/
def remove_duplicate_images (t : Table) : Table :=
  t.filter (fun r => !(isDupKey t r.cols && !((dupGroupMinIds t).contains r.id)))

theorem mem_groupRows {t : Table} {key : List Val} {r : DBRow} :
    r ∈ groupRows t key ↔ r ∈ t ∧ r.cols = key := by
  simp [groupRows, List.mem_filter]

theorem groupRows_ne_nil {t : Table} {r : DBRow} (hr : r ∈ t) :
    groupRows t r.cols ≠ [] := by
  intro h
  have : r ∈ groupRows t r.cols := mem_groupRows.mpr ⟨hr, rfl⟩
  simp [h] at this

theorem groupMinId_le {t : Table} {key : List Val} {r : DBRow}
    (hr : r ∈ groupRows t key) : groupMinId t key ≤ r.id := by
  have hmem : r.id ∈ (groupRows t key).map (fun r => r.id) :=
    List.mem_map_of_mem _ hr
  unfold groupMinId
  cases hg : (groupRows t key).map (fun r => r.id) with
  | nil => rw [hg] at hmem; cases hmem
  | cons a l =>
    rw [hg] at hmem
    rcases List.mem_cons.mp hmem with h | h
    · rw [h]; exact listMin_le_head a l
    · exact listMin_le_mem a l _ h

theorem groupMinId_mem {t : Table} {key : List Val}
    (h : groupRows t key ≠ []) :
    ∃ s ∈ groupRows t key, s.id = groupMinId t key := by
  unfold groupMinId
  cases hg : (groupRows t key).map (fun r => r.id) with
  | nil =>
    exact absurd (List.map_eq_nil_iff.mp hg) h
  | cons a l =>
    have hmem : listMin a l ∈ (groupRows t key).map (fun r => r.id) := by
      rw [hg]
      rcases listMin_mem a l with h' | h'
      · rw [h']; exact List.mem_cons_self a l
      · exact List.mem_cons_of_mem a h'
    rcases List.mem_map.mp hmem with ⟨s, hs, hsid⟩
    exact ⟨s, hs, hsid⟩

theorem id_inj {t : Table} (h : (t.map (fun r => r.id)).Nodup)
    {r s : DBRow} (hr : r ∈ t) (hs : s ∈ t) (hid : r.id = s.id) : r = s := by
  by_contra hne
  have hp : t.Pairwise (fun a b => a.id ≠ b.id) := List.pairwise_map.mp h
  exact hp.forall (fun a b hab => hab.symm) hr hs hne hid

theorem groupRows_singleton {t : Table} {r : DBRow} (hr : r ∈ t)
    (hlen : ¬ 1 < (groupRows t r.cols).length) :
    groupRows t r.cols = [r] := by
  have hmem : r ∈ groupRows t r.cols := mem_groupRows.mpr ⟨hr, rfl⟩
  match hg : groupRows t r.cols with
  | [] => rw [hg] at hmem; cases hmem
  | [x] =>
    rw [hg] at hmem
    rcases List.mem_singleton.mp hmem with h
    rw [h]
  | x :: y :: l =>
    rw [hg] at hlen
    exact absurd (by simp) hlen

theorem groupMinId_of_singleton {t : Table} {r : DBRow}
    (hg : groupRows t r.cols = [r]) : groupMinId t r.cols = r.id := by
  unfold groupMinId
  rw [hg]
  rfl

theorem mem_dupGroupMinIds {t : Table} {n : Nat} :
    n ∈ dupGroupMinIds t ↔
      ∃ s ∈ t, isDupKey t s.cols = true ∧ groupMinId t s.cols = n := by
  unfold dupGroupMinIds
  constructor
  · intro h
    rcases List.mem_map.mp h with ⟨k, hk, hkn⟩
    rcases List.mem_filter.mp hk with ⟨hkmem, hdup⟩
    rcases List.mem_map.mp hkmem with ⟨s, hs, hsk⟩
    exact ⟨s, hs, by rw [hsk]; exact hdup, by rw [hsk]; exact hkn⟩
  · rintro ⟨s, hs, hdup, hmin⟩
    refine List.mem_map.mpr ⟨s.cols, List.mem_filter.mpr ⟨List.mem_map_of_mem _ hs, hdup⟩, hmin⟩

/-- Characterization of the DELETE in `remove_duplicate_images`: when row ids
are pairwise distinct, a row of `t` survives iff its id is the minimum id of
its equivalence class (rows equal in all columns except id and path). -/
theorem mem_remove_duplicate_images {t : Table}
    (hid : (t.map (fun r => r.id)).Nodup) {r : DBRow} (hr : r ∈ t) :
    r ∈ remove_duplicate_images t ↔ r.id = groupMinId t r.cols := by
  have hcond : (!(isDupKey t r.cols && !((dupGroupMinIds t).contains r.id))) = true ↔
      (isDupKey t r.cols = true → r.id ∈ dupGroupMinIds t) := by
    have hcm : ((dupGroupMinIds t).contains r.id = true) ↔ r.id ∈ dupGroupMinIds t :=
      List.elem_iff
    cases hc : (dupGroupMinIds t).contains r.id with
    | true => simp [hcm.mp hc]
    | false =>
      have hmem : ¬ r.id ∈ dupGroupMinIds t := by
        intro h
        rw [hcm.mpr h] at hc
        cases hc
      simp [hmem]
  unfold remove_duplicate_images
  rw [List.mem_filter, hcond]
  constructor
  · rintro ⟨-, himp⟩
    by_cases hdup : isDupKey t r.cols = true
    · rcases mem_dupGroupMinIds.mp (himp hdup) with ⟨s, hs, hsdup, hsmin⟩
      have hne : groupRows t s.cols ≠ [] := by
        intro h
        rw [isDupKey, h] at hsdup
        simp at hsdup
      rcases groupMinId_mem hne with ⟨u, hu, huid⟩
      have hur : u = r := id_inj hid (mem_groupRows.mp hu).1 hr (by rw [huid, hsmin])
      have hcols : r.cols = s.cols := by
        rw [← hur]; exact (mem_groupRows.mp hu).2
      rw [hcols, hsmin]
    · have hsing : groupRows t r.cols = [r] :=
        groupRows_singleton hr (by
          intro h
          exact hdup (by unfold isDupKey; exact decide_eq_true h))
      exact (groupMinId_of_singleton hsing).symm
  · intro hrmin
    exact ⟨hr, fun hdup => mem_dupGroupMinIds.mpr ⟨r, hr, hdup, hrmin.symm⟩⟩

/-- One projected row of the duplicate-identification SELECT in
`remove_duplicate_images`: `(t1.min_id, t1.id, t1.path, t1.min_path)`. -/
structure DupEntry where
  min_id : Nat
  rid : Nat
  rpath : String
  min_path : String
deriving DecidableEq

/-- The duplicate-identification SELECT (before ORDER BY): every row whose id
differs from the minimum id of its partition, projected to
`(min_id, id, path, min_path)`. -/
def dupSelect (t : Table) : List DupEntry :=
  (t.filter (fun r => decide (r.id ≠ groupMinId t r.cols))).map
    (fun r => ⟨groupMinId t r.cols, r.id, r.path, groupMinPath t r.cols⟩)

/-- Insertion step of the stable sort implementing `ORDER BY t1.min_id`. -/
def insertByMinId (d : DupEntry) : List DupEntry → List DupEntry
  | [] => [d]
  | e :: l => if d.min_id ≤ e.min_id then d :: e :: l else e :: insertByMinId d l

/-- Stable insertion sort by `min_id` (`ORDER BY t1.min_id`). -/
def sortByMinId : List DupEntry → List DupEntry
  | [] => []
  | d :: l => insertByMinId d (sortByMinId l)

/-- The `duplicates` list fetched by `remove_duplicate_images`. -/
def duplicates (t : Table) : List DupEntry :=
  sortByMinId (dupSelect t)

/-- One line of the audit CSV written by `remove_duplicate_images`
(columns `min_id`, `id`, `path`, `status`). -/
structure AuditLine where
  min_id : Nat
  rid : Nat
  path : String
  status : String
deriving DecidableEq

/-- The CSV-writing loop of `remove_duplicate_images`: before the `removed`
line of a duplicate entry, a `preserved` line `(min_id, min_id, min_path)` is
emitted whenever the entry is the first one or its `min_id` differs from the
previous entry's (`if idx == 0 or dup[0] != duplicates[idx - 1][0]`). -/
def writeAuditLoop : Option Nat → List DupEntry → List AuditLine
  | _, [] => []
  | prev, d :: rest =>
    (if prev = some d.min_id then [] else
      [AuditLine.mk d.min_id d.min_id d.min_path "preserved"]) ++
    AuditLine.mk d.min_id d.rid d.rpath "removed" :: writeAuditLoop (some d.min_id) rest

/-- The full contents of the audit CSV (header line omitted). -/
def auditCSV (t : Table) : List AuditLine :=
  writeAuditLoop none (duplicates t)

/-- `MAX(id)` of the table (0 when empty); SQLite assigns `max + 1` as the
next automatic INTEGER PRIMARY KEY. -/
def maxId (t : Table) : Nat :=
  t.foldl (fun acc r => max acc r.id) 0

/-- One INSERT of `insert_data_to_table`: the id is auto-assigned; the
`path TEXT UNIQUE` constraint of the schema makes the insert fail when the
path is already present. -/
def insert_row (t : Table) (path : String) (cols : List Val) : Option Table :=
  if t.any (fun r => r.path == path) then none
  else some (t ++ [DBRow.mk (maxId t + 1) path cols])

/-- `insert_data_to_table`: insert the parsed rows one by one. -/
def insert_data_to_table (rows : List (String × List Val)) (t : Table) : Option Table :=
  match rows with
  | [] => some t
  | (p, cs) :: rest =>
    match insert_row t p cs with
    | none => none
    | some t' => insert_data_to_table rest t'

/-- `construct_database`: create the table (empty), insert the parsed rows,
export the CSV (a snapshot of the table at that point), then remove
duplicates. Returns `(csv contents, final table)`. -/
def construct_database (input : List (String × List Val)) : Option (Table × Table) :=
  match insert_data_to_table input [] with
  | none => none
  | some t => some (t, remove_duplicate_images t)

/-- First-match lookup in an association list (a Python `dict` access). -/
def lookup? {α : Type} (d : List (String × α)) (k : String) : Option α :=
  (d.find? (fun kv => kv.1 == k)).map (fun kv => kv.2)

/-- One row assembled by `combine_lists`: image path, then for each base
parameter the job override when the image's job entry defines it and the base
default otherwise, then the `faulty` flag 0. `none` models the `KeyError`
raised when the image's index string has no job entry. -/
def combine_row (path : String) (id_str : String)
    (base_param_dict : List (String × String))
    (job_param_dict : List (String × List (String × String))) : Option (List Val) :=
  match lookup? job_param_dict id_str with
  | none => none
  | some jd =>
    some (Val.textV path ::
      (base_param_dict.map (fun nb =>
        match lookup? jd nb.1 with
        | some ov => Val.textV ov
        | none => Val.textV nb.2)) ++ [Val.intV 0])

/-- `combine_lists`: one database row per (image path, index string) pair. -/
def combine_lists (image_path_list image_id_str_list : List String)
    (base_param_dict : List (String × String))
    (job_param_dict : List (String × List (String × String))) :
    Option (List (List Val)) :=
  (image_path_list.zip image_id_str_list).mapM
    (fun ps => combine_row ps.1 ps.2 base_param_dict job_param_dict)

/-- Rendering of a stored value into the exported text file. -/
def valStr : Val → String
  | Val.intV n => toString n
  | Val.realV q => toString q
  | Val.textV s => s

/-- The `params` dictionary of `export_row_to_file` in helper_functions.py:
name and value pairs `("model", row[2]) .. ("Ina", row[31])`, in insertion
order. `row[k]` is `cols[k - 2]`. -/
def exportParams (row : DBRow) : List (String × Val) :=
  [("model", row.cols.getD 0 dv), ("viewthresh", row.cols.getD 1 dv),
   ("viewmode", row.cols.getD 2 dv), ("iter", row.cols.getD 3 dv),
   ("Egr", row.cols.getD 4 dv), ("Mgr", row.cols.getD 5 dv),
   ("Rep", row.cols.getD 6 dv), ("Swi", row.cols.getD 7 dv),
   ("Adh", row.cols.getD 8 dv), ("Act", row.cols.getD 9 dv),
   ("Inh", row.cols.getD 10 dv), ("Sec", row.cols.getD 11 dv),
   ("Da", row.cols.getD 12 dv), ("Di", row.cols.getD 13 dv),
   ("Ds", row.cols.getD 14 dv), ("Int", row.cols.getD 15 dv),
   ("Set", row.cols.getD 16 dv), ("Boy", row.cols.getD 17 dv),
   ("Dff", row.cols.getD 18 dv), ("Bgr", row.cols.getD 19 dv),
   ("Abi", row.cols.getD 20 dv), ("Pbi", row.cols.getD 21 dv),
   ("Lbi", row.cols.getD 22 dv), ("Bbi", row.cols.getD 23 dv),
   ("Rad", row.cols.getD 24 dv), ("Deg", row.cols.getD 25 dv),
   ("Dgr", row.cols.getD 26 dv), ("Ntr", row.cols.getD 27 dv),
   ("Bwi", row.cols.getD 28 dv), ("Ina", row.cols.getD 29 dv)]

/-- The lines written into the exported parameter text file. -/
def export_file_lines (row : DBRow) : List String :=
  ["# Model parameters file generated by Toothseeker! (in style of ones created by MorphoMaker 0.6.4.)",
   "# NOTE: Parameter names are case-sensitive, while non-parameter keywords",
   "# (e.g. model, viewtresh) are case-insensitive!",
   "",
   "# Model name, view threshold, view mode, iterations.",
   "model==" ++ valStr (row.cols.getD 0 dv),
   "viewthresh==" ++ valStr (row.cols.getD 1 dv),
   "viewmode==" ++ valStr (row.cols.getD 2 dv),
   "iter==" ++ valStr (row.cols.getD 3 dv),
   "",
   "# Parameters."] ++
  ((exportParams row).filter
      (fun pv => !(["model", "viewthresh", "viewmode", "iter"].contains pv.1))).map
    (fun pv => pv.1 ++ "==" ++ valStr pv.2)

/-- `export_row_to_file`: look up the row by id; when it is absent, return
before any filesystem effect. Returns the table after the call, the written
file's lines (if any), and whether the export directory exists afterwards. -/
def export_row_to_file (t : Table) (row_id : Nat) (dirExists : Bool) :
    Table × Option (List String) × Bool :=
  match t.find? (fun r => r.id == row_id) with
  | none => (t, none, dirExists)
  | some row => (t, some (export_file_lines row), true)

/-- `find_rows_differing_by_param` in stackview.py: fetch the base row by id,
then select the rows whose id differs from `row_id`, whose `chosen_param`
column differs from the base row's, and which agree with the base row on
every column other than `id`, `path` and `chosen_param`. -/
def find_rows_differing_by_param (t : Table) (row_id : Nat) (chosen_param : String) :
    Option (DBRow × List DBRow) :=
  match t.find? (fun r => r.id == row_id) with
  | none => none
  | some base =>
    let pi := paramColumns.indexOf chosen_param
    some (base, t.filter (fun r =>
      (r.id != row_id) &&
      !(decide (r.cols.getD pi dv = base.cols.getD pi dv)) &&
      ((List.range paramColumns.length).all (fun j =>
        (j == pi) || decide (r.cols.getD j dv = base.cols.getD j dv)))))

theorem find_rows_base {t : Table} {row_id : Nat} {p : String}
    {base : DBRow} {rows : List DBRow}
    (h : find_rows_differing_by_param t row_id p = some (base, rows)) :
    base ∈ t ∧ base.id = row_id ∧
      rows = t.filter (fun r =>
        (r.id != row_id) &&
        !(decide (r.cols.getD (paramColumns.indexOf p) dv =
            base.cols.getD (paramColumns.indexOf p) dv)) &&
        ((List.range paramColumns.length).all (fun j =>
          (j == paramColumns.indexOf p) ||
          decide (r.cols.getD j dv = base.cols.getD j dv)))) := by
  unfold find_rows_differing_by_param at h
  cases hf : t.find? (fun r => r.id == row_id) with
  | none => rw [hf] at h; cases h
  | some b =>
    rw [hf] at h
    have hpair : b = base ∧ _ = rows := Prod.mk.injEq .. |>.mp (Option.some.injEq .. |>.mp h)
    rcases hpair with ⟨hb, hrows⟩
    subst hb
    refine ⟨List.mem_of_find?_eq_some hf, ?_, hrows.symm⟩
    have := List.find?_some hf
    exact beq_iff_eq.mp this

/-- Membership in the row list returned by `find_rows_differing_by_param`,
in terms of column positions. -/
theorem mem_find_rows {t : Table} {row_id : Nat} {p : String}
    {base : DBRow} {rows : List DBRow}
    (h : find_rows_differing_by_param t row_id p = some (base, rows)) (r : DBRow) :
    r ∈ rows ↔
      r ∈ t ∧ r.id ≠ base.id ∧
      r.cols.getD (paramColumns.indexOf p) dv ≠
        base.cols.getD (paramColumns.indexOf p) dv ∧
      ∀ j < paramColumns.length, j ≠ paramColumns.indexOf p →
        r.cols.getD j dv = base.cols.getD j dv := by
  rcases find_rows_base h with ⟨hbmem, hbid, hrows⟩
  rw [hrows, List.mem_filter]
  constructor
  · rintro ⟨hrt, hcond⟩
    rcases Bool.and_eq_true .. |>.mp hcond with ⟨hcond', hall⟩
    rcases Bool.and_eq_true .. |>.mp hcond' with ⟨hne, hdiff⟩
    refine ⟨hrt, ?_, ?_, ?_⟩
    · rw [hbid]; exact bne_iff_ne.mp hne
    · intro heq
      rw [Bool.not_eq_true', decide_eq_false_iff_not] at hdiff
      exact hdiff heq
    · intro j hj hjp
      have := List.all_eq_true.mp hall j (List.mem_range.mpr hj)
      rcases Bool.or_eq_true .. |>.mp this with h' | h'
      · exact absurd (beq_iff_eq.mp h') hjp
      · exact of_decide_eq_true h'
  · rintro ⟨hrt, hne, hdiff, hall⟩
    refine ⟨hrt, ?_⟩
    rw [Bool.and_eq_true, Bool.and_eq_true]
    refine ⟨⟨bne_iff_ne.mpr (by rw [← hbid]; exact hne), ?_⟩, ?_⟩
    · rw [Bool.not_eq_true', decide_eq_false_iff_not]
      exact hdiff
    · rw [List.all_eq_true]
      intro j hj
      by_cases hjp : j = paramColumns.indexOf p
      · rw [Bool.or_eq_true]
        exact Or.inl (by rw [hjp]; exact beq_iff_eq.mpr rfl)
      · rw [Bool.or_eq_true]
        exact Or.inr (decide_eq_true (hall j (List.mem_range.mp hj) hjp))

theorem paramColumns_nodup : paramColumns.Nodup := by decide

theorem forall_index_iff_forall_name {r base : DBRow} {p : String}
    (hp : p ∈ paramColumns) :
    (∀ j < paramColumns.length, j ≠ paramColumns.indexOf p →
        r.cols.getD j dv = base.cols.getD j dv) ↔
      (∀ q ∈ paramColumns, q ≠ p → colAt r q = colAt base q) := by
  constructor
  · intro h q hq hqp
    have hlt : paramColumns.indexOf q < paramColumns.length :=
      List.indexOf_lt_length.mpr hq
    have hne : paramColumns.indexOf q ≠ paramColumns.indexOf p := by
      intro he
      have h1 : paramColumns.get ⟨paramColumns.indexOf q, hlt⟩ = q :=
        List.indexOf_get hlt
      have hltp : paramColumns.indexOf p < paramColumns.length :=
        List.indexOf_lt_length.mpr hp
      have h2 : paramColumns.get ⟨paramColumns.indexOf p, hltp⟩ = p :=
        List.indexOf_get hltp
      apply hqp
      rw [← h1, ← h2]
      congr 1
      exact Fin.ext he
    exact h _ hlt hne
  · intro h j hj hjp
    have hq : paramColumns.get ⟨j, hj⟩ ∈ paramColumns := List.get_mem _ _ hj
    have hidx : paramColumns.indexOf (paramColumns.get ⟨j, hj⟩) = j :=
      List.get_indexOf paramColumns_nodup _
    have hqp : paramColumns.get ⟨j, hj⟩ ≠ p := by
      intro he
      rw [he] at hidx
      exact hjp hidx.symm
    have := h _ hq hqp
    rw [colAt, colAt, hidx] at this
    exact this

/-- C2. For every base row id present in the table and every parameter column
(not id or path), `find_rows_differing_by_param` returns exactly the rows `r`
with an id different from the base id whose value in the chosen parameter
column differs from the base row's and which match the base row on every
other column excluding id and path. -/
theorem find_rows_returns_exactly_neighbors
    (t : Table) (row_id : Nat) (p : String) (hp : p ∈ paramColumns)
    (base : DBRow) (rows : List DBRow)
    (h : find_rows_differing_by_param t row_id p = some (base, rows)) (r : DBRow) :
    r ∈ rows ↔
      r ∈ t ∧ r.id ≠ base.id ∧ colAt r p ≠ colAt base p ∧
      ∀ q ∈ paramColumns, q ≠ p → colAt r q = colAt base q := by
  rw [mem_find_rows h r, ← forall_index_iff_forall_name hp]
  rfl

/-- C9. The neighbor relation of `find_rows_differing_by_param` is symmetric:
row B is returned for base row A and parameter p iff row A is returned for
base row B and parameter p. -/
theorem find_rows_neighbor_symmetric
    (t : Table) (idA idB : Nat) (p : String)
    (A B : DBRow) (rowsA rowsB : List DBRow)
    (hA : find_rows_differing_by_param t idA p = some (A, rowsA))
    (hB : find_rows_differing_by_param t idB p = some (B, rowsB)) :
    B ∈ rowsA ↔ A ∈ rowsB := by
  have hAmem : A ∈ t := (find_rows_base hA).1
  have hBmem : B ∈ t := (find_rows_base hB).1
  rw [mem_find_rows hA B, mem_find_rows hB A]
  constructor
  · rintro ⟨-, hid, hdiff, hall⟩
    exact ⟨hAmem, fun he => hid he.symm, fun he => hdiff he.symm,
      fun j hj hjp => (hall j hj hjp).symm⟩
  · rintro ⟨-, hid, hdiff, hall⟩
    exact ⟨hBmem, fun he => hid he.symm, fun he => hdiff he.symm,
      fun j hj hjp => (hall j hj hjp).symm⟩

theorem le_foldl_max (t : Table) (acc : Nat) :
    acc ≤ t.foldl (fun a r => max a r.id) acc := by
  induction t generalizing acc with
  | nil => exact le_refl acc
  | cons r t ih => exact le_trans (le_max_left acc r.id) (ih (max acc r.id))

theorem maxId_spec {t : Table} {r : DBRow} (hr : r ∈ t) : r.id ≤ maxId t := by
  unfold maxId
  generalize 0 = acc
  induction t generalizing acc with
  | nil => cases hr
  | cons s t ih =>
    rcases List.mem_cons.mp hr with h | h
    · rw [h]
      exact le_trans (le_max_right acc s.id) (le_foldl_max t (max acc s.id))
    · exact ih h (max acc s.id)

theorem insert_row_ids_nodup {t : Table} {p : String} {cs : List Val} {t' : Table}
    (h : insert_row t p cs = some t')
    (hid : (t.map (fun r => r.id)).Nodup) :
    (t'.map (fun r => r.id)).Nodup := by
  unfold insert_row at h
  by_cases hany : t.any (fun r => r.path == p) = true
  · rw [if_pos hany] at h; cases h
  · rw [if_neg hany] at h
    have ht' : t' = t ++ [DBRow.mk (maxId t + 1) p cs] := (Option.some.injEq .. |>.mp h).symm
    rw [ht', List.map_append]
    rw [List.nodup_append]
    refine ⟨hid, List.nodup_singleton _, ?_⟩
    intro n hn hn'
    rcases List.mem_map.mp hn with ⟨r, hr, hrn⟩
    rcases List.mem_singleton.mp (by simpa using hn') with h'
    have : r.id ≤ maxId t := maxId_spec hr
    omega

theorem insert_row_path_nodup {t : Table} {p : String} {cs : List Val} {t' : Table}
    (h : insert_row t p cs = some t')
    (hpath : (t.map (fun r => r.path)).Nodup) :
    (t'.map (fun r => r.path)).Nodup := by
  unfold insert_row at h
  by_cases hany : t.any (fun r => r.path == p) = true
  · rw [if_pos hany] at h; cases h
  · rw [if_neg hany] at h
    have ht' : t' = t ++ [DBRow.mk (maxId t + 1) p cs] := (Option.some.injEq .. |>.mp h).symm
    rw [ht', List.map_append, List.nodup_append]
    refine ⟨hpath, List.nodup_singleton _, ?_⟩
    intro q hq hq'
    rcases List.mem_map.mp hq with ⟨r, hr, hrq⟩
    rcases List.mem_singleton.mp (by simpa using hq') with h'
    have hr' : ¬ (r.path == p) = true := by
      intro hb
      exact hany (List.any_eq_true.mpr ⟨r, hr, hb⟩)
    apply hr'
    rw [beq_iff_eq]
    rw [← hrq] at h'
    exact h'

theorem insert_data_ids_nodup {rows : List (String × List Val)} {t t' : Table}
    (h : insert_data_to_table rows t = some t')
    (hid : (t.map (fun r => r.id)).Nodup) :
    (t'.map (fun r => r.id)).Nodup := by
  induction rows generalizing t with
  | nil =>
    rcases Option.some.injEq .. |>.mp h with h'
    rw [← h']; exact hid
  | cons rc rest ih =>
    unfold insert_data_to_table at h
    cases hi : insert_row t rc.1 rc.2 with
    | none => rw [hi] at h; cases h
    | some t₁ =>
      rw [hi] at h
      exact ih h (insert_row_ids_nodup hi hid)

theorem insert_data_path_nodup {rows : List (String × List Val)} {t t' : Table}
    (h : insert_data_to_table rows t = some t')
    (hpath : (t.map (fun r => r.path)).Nodup) :
    (t'.map (fun r => r.path)).Nodup := by
  induction rows generalizing t with
  | nil =>
    rcases Option.some.injEq .. |>.mp h with h'
    rw [← h']; exact hpath
  | cons rc rest ih =>
    unfold insert_data_to_table at h
    cases hi : insert_row t rc.1 rc.2 with
    | none => rw [hi] at h; cases h
    | some t₁ =>
      rw [hi] at h
      exact ih h (insert_row_path_nodup hi hpath)

theorem construct_database_parts {input : List (String × List Val)}
    {csvT finalT : Table}
    (h : construct_database input = some (csvT, finalT)) :
    insert_data_to_table input [] = some csvT ∧
      finalT = remove_duplicate_images csvT := by
  unfold construct_database at h
  cases hi : insert_data_to_table input [] with
  | none => rw [hi] at h; cases h
  | some t =>
    rw [hi] at h
    rcases Prod.mk.injEq .. |>.mp (Option.some.injEq .. |>.mp h) with ⟨h1, h2⟩
    subst h1
    exact ⟨rfl, h2.symm⟩

/-- C1. After `construct_database` completes, a row of the inserted table
remains in the final table iff its id is the minimum id of its equivalence
class (rows identical in all columns except id and path): exactly the
lowest-id representative of each class survives `remove_duplicate_images`. -/
theorem construct_database_keeps_min_id_per_class
    (input : List (String × List Val)) (csvT finalT : Table)
    (h : construct_database input = some (csvT, finalT))
    (r : DBRow) (hr : r ∈ csvT) :
    r ∈ finalT ↔ r.id = groupMinId csvT r.cols := by
  rcases construct_database_parts h with ⟨hins, hfin⟩
  have hid : (csvT.map (fun r => r.id)).Nodup :=
    insert_data_ids_nodup hins List.nodup_nil
  rw [hfin]
  exact mem_remove_duplicate_images hid hr

/-- C5 counterexample. For an input holding two rows equal in every column
except path, the exported CSV (written before duplicate removal) contains
the row with id 2, which the final table no longer holds: the CSV does not
equal the table after duplicate removal. -/
theorem construct_database_csv_has_removed_row :
    construct_database [("a", [Val.intV 1]), ("b", [Val.intV 1])] =
      some ([DBRow.mk 1 "a" [Val.intV 1], DBRow.mk 2 "b" [Val.intV 1]],
            [DBRow.mk 1 "a" [Val.intV 1]]) ∧
    DBRow.mk 2 "b" [Val.intV 1] ∈
      ([DBRow.mk 1 "a" [Val.intV 1], DBRow.mk 2 "b" [Val.intV 1]] : Table) ∧
    DBRow.mk 2 "b" [Val.intV 1] ∉ ([DBRow.mk 1 "a" [Val.intV 1]] : Table) := by
  refine ⟨by decide, by decide, by decide⟩

/-- C5 amended. `construct_database` creates the table, inserts the parsed
rows, exports the CSV, and removes duplicates last: the exported CSV holds
the table as it stands after insertion, and the final table is the result of
duplicate removal applied to that snapshot (so the CSV contains the rows
before duplicate removal, not after). -/
theorem construct_database_order
    (input : List (String × List Val)) (csvT finalT : Table)
    (h : construct_database input = some (csvT, finalT)) :
    insert_data_to_table input [] = some csvT ∧
      finalT = remove_duplicate_images csvT :=
  construct_database_parts h

/-- C7. `path` uniquely identifies a row: starting from a table with pairwise
distinct paths (`init_db` creates it empty), the paths remain pairwise
distinct after `insert_data_to_table` (the schema's UNIQUE constraint rejects
a duplicate path) and after `remove_duplicate_images`. -/
theorem path_unique_invariant
    (rows : List (String × List Val)) (t t' : Table)
    (h : insert_data_to_table rows t = some t')
    (ht : (t.map (fun r => r.path)).Nodup) :
    (t'.map (fun r => r.path)).Nodup ∧
      ((remove_duplicate_images t').map (fun r => r.path)).Nodup := by
  have h1 : (t'.map (fun r => r.path)).Nodup := insert_data_path_nodup h ht
  refine ⟨h1, ?_⟩
  have hsub : (remove_duplicate_images t').Sublist t' := List.filter_sublist t'
  exact h1.sublist (hsub.map (fun r => r.path))

/-- C8. `remove_duplicate_images` only deletes rows: its result is a sublist
of the table, and every row forming a singleton equivalence class (no other
row equal in all columns except id and path) remains afterwards with all its
fields unchanged. -/
theorem remove_duplicate_images_frame (t : Table) (r : DBRow) (hr : r ∈ t)
    (hsing : groupRows t r.cols = [r]) :
    (remove_duplicate_images t).Sublist t ∧ r ∈ remove_duplicate_images t := by
  refine ⟨List.filter_sublist t, ?_⟩
  unfold remove_duplicate_images
  rw [List.mem_filter]
  refine ⟨hr, ?_⟩
  have hdup : isDupKey t r.cols = false := by
    unfold isDupKey
    rw [hsing]
    rfl
  rw [hdup]
  rfl

/-- C10. When no row with the given id exists, `export_row_to_file` returns
before any filesystem effect: the table is unchanged, no file is written and
no output directory is created. -/
theorem export_row_missing_id_no_effect (t : Table) (row_id : Nat) (d : Bool)
    (h : ∀ r ∈ t, r.id ≠ row_id) :
    export_row_to_file t row_id d = (t, none, d) := by
  unfold export_row_to_file
  have hf : t.find? (fun r => r.id == row_id) = none := by
    rw [List.find?_eq_none]
    intro r hr
    simp [h r hr]
  rw [hf]

theorem mapM_get? {α β : Type} (f : α → Option β) (l : List α) (out : List β)
    (h : l.mapM f = some out) (k : Nat) (x : α) (hx : l.get? k = some x) :
    ∃ y, f x = some y ∧ out.get? k = some y := by
  induction l generalizing out k with
  | nil => cases hx
  | cons a l ih =>
    rw [List.mapM_cons] at h
    cases hfa : f a with
    | none => rw [hfa] at h; cases h
    | some b =>
      rw [hfa] at h
      cases hml : l.mapM f with
      | none => rw [hml] at h; cases h
      | some bs =>
        rw [hml] at h
        have hout : out = b :: bs := by
          have := Option.some.injEq .. |>.mp h
          exact this.symm
        subst hout
        cases k with
        | zero =>
          have hax : a = x := Option.some.injEq .. |>.mp hx
          subst hax
          exact ⟨b, hfa, rfl⟩
        | succ k => exact ih bs hml k hx

/-- C4. Every row assembled by `combine_lists` stores, at the position of
the i-th base parameter, the job override for that parameter when the job
entry of the image's index string defines it, and the base default
otherwise. -/
theorem combine_lists_value_spec
    (paths ids : List String)
    (base : List (String × String)) (job : List (String × List (String × String)))
    (rows : List (List Val))
    (h : combine_lists paths ids base job = some rows)
    (k : Nat) (path id_str : String)
    (hk : (paths.zip ids).get? k = some (path, id_str))
    (i : Nat) (name bval : String) (hbase : base.get? i = some (name, bval))
    (jd : List (String × String)) (hjd : lookup? job id_str = some jd) :
    (rows.get? k).bind (fun r => r.get? (i + 1)) =
      some (match lookup? jd name with
            | some ov => Val.textV ov
            | none => Val.textV bval) := by
  unfold combine_lists at h
  rcases mapM_get? _ _ _ h k (path, id_str) hk with ⟨row, hrow, hout⟩
  unfold combine_row at hrow
  rw [hjd] at hrow
  have hrow' : row = Val.textV path ::
      (base.map (fun nb =>
        match lookup? jd nb.1 with
        | some ov => Val.textV ov
        | none => Val.textV nb.2)) ++ [Val.intV 0] :=
    (Option.some.injEq .. |>.mp hrow).symm
  rw [hout]
  have hi : i < base.length := List.get?_eq_some.mp hbase |>.1
  have hlen : i < (base.map (fun nb =>
      match lookup? jd nb.1 with
      | some ov => Val.textV ov
      | none => Val.textV nb.2)).length := by
    rw [List.length_map]; exact hi
  rw [hrow']
  show ((base.map fun (nb : String × String) =>
      match lookup? jd nb.1 with
      | some ov => Val.textV ov
      | none => Val.textV nb.2) ++ [Val.intV 0]).get? i = _
  rw [List.get?_append hlen, List.get?_map, hbase]
  rfl

/-- A sample row whose 32 column values are the distinct integers 0..31
(so column k of the schema holds `intV (k - 2)`). -/
def uMgrRow : DBRow := DBRow.mk 1 "shot.png" ((List.range 32).map (fun i => Val.intV i))

/-- A one-row table holding `uMgrRow`. -/
def uMgrTable : Table := [uMgrRow]

/-- C6 divergence. On a row that stores a value in every column,
`export_row_to_file` writes `name==value` lines for model, viewthresh,
viewmode, iter and the parameters Egr up to Ina, but writes no line for the
uMgr column (the `params` dictionary in helper_functions.py stops at
`"Ina": row[31]`), although the row stores `uMgr = 30`; the claim requires a
line for every parameter Egr through uMgr. -/
theorem export_row_omits_uMgr :
    export_row_to_file uMgrTable 1 true =
      (uMgrTable, some (export_file_lines uMgrRow), true) ∧
    "model==0" ∈ export_file_lines uMgrRow ∧
    "viewthresh==1" ∈ export_file_lines uMgrRow ∧
    "viewmode==2" ∈ export_file_lines uMgrRow ∧
    "iter==3" ∈ export_file_lines uMgrRow ∧
    "Egr==4" ∈ export_file_lines uMgrRow ∧
    "Ina==29" ∈ export_file_lines uMgrRow ∧
    colAt uMgrRow "uMgr" = Val.intV 30 ∧
    "uMgr==30" ∉ export_file_lines uMgrRow ∧
    (export_file_lines uMgrRow).length = 37 := by
  refine ⟨by decide, by decide, by decide, by decide, by decide, by decide,
    by decide, by decide, by decide, by decide⟩

theorem mem_dupSelect {t : Table} {d : DupEntry} :
    d ∈ dupSelect t ↔ ∃ r ∈ t, r.id ≠ groupMinId t r.cols ∧
      d = DupEntry.mk (groupMinId t r.cols) r.id r.path (groupMinPath t r.cols) := by
  unfold dupSelect
  constructor
  · intro h
    rcases List.mem_map.mp h with ⟨r, hr, hrd⟩
    rcases List.mem_filter.mp hr with ⟨hrt, hcond⟩
    exact ⟨r, hrt, of_decide_eq_true hcond, hrd.symm⟩
  · rintro ⟨r, hrt, hne, hd⟩
    exact List.mem_map.mpr ⟨r, List.mem_filter.mpr ⟨hrt, decide_eq_true hne⟩, hd.symm⟩

theorem insertByMinId_perm (d : DupEntry) (l : List DupEntry) :
    (insertByMinId d l).Perm (d :: l) := by
  induction l with
  | nil => exact List.Perm.refl _
  | cons e l ih =>
    unfold insertByMinId
    by_cases h : d.min_id ≤ e.min_id
    · rw [if_pos h]
    · rw [if_neg h]
      exact List.Perm.trans (List.Perm.cons e ih) (List.Perm.swap d e l)

theorem sortByMinId_perm (l : List DupEntry) : (sortByMinId l).Perm l := by
  induction l with
  | nil => exact List.Perm.refl _
  | cons d l ih =>
    exact List.Perm.trans (insertByMinId_perm d (sortByMinId l)) (List.Perm.cons d ih)

theorem insertByMinId_sorted {d : DupEntry} {l : List DupEntry}
    (h : l.Pairwise (fun a b => a.min_id ≤ b.min_id)) :
    (insertByMinId d l).Pairwise (fun a b => a.min_id ≤ b.min_id) := by
  induction l with
  | nil => simp [insertByMinId]
  | cons e l ih =>
    rw [List.pairwise_cons] at h
    rcases h with ⟨he, hl⟩
    unfold insertByMinId
    by_cases hle : d.min_id ≤ e.min_id
    · rw [if_pos hle]
      rw [List.pairwise_cons]
      refine ⟨?_, List.pairwise_cons.mpr ⟨he, hl⟩⟩
      intro x hx
      rcases List.mem_cons.mp hx with h' | h'
      · rw [h']; exact hle
      · exact le_trans hle (he x h')
    · rw [if_neg hle]
      rw [List.pairwise_cons]
      refine ⟨?_, ih hl⟩
      intro x hx
      have hx' : x ∈ d :: l := (insertByMinId_perm d l).mem_iff.mp hx
      rcases List.mem_cons.mp hx' with h' | h'
      · rw [h']; omega
      · exact he x h'

theorem sortByMinId_sorted (l : List DupEntry) :
    (sortByMinId l).Pairwise (fun a b => a.min_id ≤ b.min_id) := by
  induction l with
  | nil => exact List.Pairwise.nil
  | cons d l ih => exact insertByMinId_sorted ih

theorem writeAudit_mem_shape {prev : Option Nat} {l : List DupEntry} {a : AuditLine}
    (ha : a ∈ writeAuditLoop prev l) :
    (∃ d ∈ l, a = AuditLine.mk d.min_id d.min_id d.min_path "preserved") ∨
    (∃ d ∈ l, a = AuditLine.mk d.min_id d.rid d.rpath "removed") := by
  induction l generalizing prev with
  | nil => cases ha
  | cons d rest ih =>
    unfold writeAuditLoop at ha
    rcases List.mem_append.mp ha with h | h
    · by_cases hp : prev = some d.min_id
      · rw [if_pos hp] at h; cases h
      · rw [if_neg hp] at h
        rcases List.mem_singleton.mp h with h'
        exact Or.inl ⟨d, List.mem_cons_self d rest, h'⟩
    · rcases List.mem_cons.mp h with h' | h'
      · exact Or.inr ⟨d, List.mem_cons_self d rest, h'⟩
      · rcases ih h' with ⟨e, he, hae⟩ | ⟨e, he, hae⟩
        · exact Or.inl ⟨e, List.mem_cons_of_mem d he, hae⟩
        · exact Or.inr ⟨e, List.mem_cons_of_mem d he, hae⟩

theorem writeAudit_removed_mem {prev : Option Nat} {l : List DupEntry} {d : DupEntry}
    (hd : d ∈ l) :
    AuditLine.mk d.min_id d.rid d.rpath "removed" ∈ writeAuditLoop prev l := by
  induction l generalizing prev with
  | nil => cases hd
  | cons e rest ih =>
    unfold writeAuditLoop
    rcases List.mem_cons.mp hd with h | h
    · rw [h]
      exact List.mem_append.mpr (Or.inr (List.mem_cons_self _ _))
    · exact List.mem_append.mpr (Or.inr (List.mem_cons_of_mem _ (ih h)))

theorem pred_removed (mid rid : Nat) (p : String) (m : Nat) :
    ((AuditLine.mk mid rid p "removed").status == "preserved" &&
      (AuditLine.mk mid rid p "removed").min_id == m) = false := rfl

theorem pred_preserved (mid rid : Nat) (p : String) (m : Nat) :
    ((AuditLine.mk mid rid p "preserved").status == "preserved" &&
      (AuditLine.mk mid rid p "preserved").min_id == m) = (mid == m) := by
  show (true && (mid == m)) = (mid == m)
  exact Bool.true_and _

theorem writeAudit_preserved_count (l : List DupEntry) (prev : Option Nat) (m : Nat)
    (hsort : l.Pairwise (fun a b => a.min_id ≤ b.min_id))
    (hprev : ∀ p, prev = some p → ∀ d ∈ l, p ≤ d.min_id) :
    (writeAuditLoop prev l).countP
        (fun a => a.status == "preserved" && a.min_id == m) =
      if prev ≠ some m ∧ m ∈ l.map (fun d => d.min_id) then 1 else 0 := by
  induction l generalizing prev with
  | nil => simp [writeAuditLoop]
  | cons d rest ih =>
    rw [List.pairwise_cons] at hsort
    rcases hsort with ⟨hd, hrest⟩
    have hrec := ih (some d.min_id) hrest (fun p hp e he => by
      injection hp with h
      rw [← h]
      exact hd e he)
    unfold writeAuditLoop
    rw [List.countP_append, List.countP_cons, pred_removed,
      if_neg Bool.false_ne_true, Nat.add_zero, hrec]
    by_cases hp : prev = some d.min_id
    · rw [if_pos hp]
      by_cases hm : d.min_id = m
      · have h1 : ¬ (some d.min_id ≠ some m ∧ m ∈ rest.map (fun d => d.min_id)) := by
          intro hc
          exact hc.1 (by rw [hm])
        have h2 : ¬ (prev ≠ some m ∧ m ∈ (d :: rest).map (fun d => d.min_id)) := by
          intro hc
          exact hc.1 (by rw [hp, hm])
        rw [if_neg h1, if_neg h2]
        rfl
      · have hiff : (some d.min_id ≠ some m ∧ m ∈ rest.map (fun d => d.min_id)) ↔
            (prev ≠ some m ∧ m ∈ (d :: rest).map (fun d => d.min_id)) := by
          constructor
          · rintro ⟨-, hmem⟩
            refine ⟨?_, List.mem_map.mpr ?_⟩
            · rw [hp]
              intro hc
              injection hc with hc'
              exact hm hc'
            · rcases List.mem_map.mp hmem with ⟨e, he, hem⟩
              exact ⟨e, List.mem_cons_of_mem d he, hem⟩
          · rintro ⟨hne, hmem⟩
            refine ⟨fun hc => hm (by injection hc), ?_⟩
            rcases List.mem_map.mp hmem with ⟨e, he, hem⟩
            rcases List.mem_cons.mp he with h' | h'
            · exact absurd (by rw [← hem, h']) hm
            · exact List.mem_map.mpr ⟨e, h', hem⟩
        by_cases hmem : some d.min_id ≠ some m ∧ m ∈ rest.map (fun d => d.min_id)
        · rw [if_pos hmem, if_pos (hiff.mp hmem)]
          rfl
        · rw [if_neg hmem, if_neg (fun hc => hmem (hiff.mpr hc))]
          rfl
    · rw [if_neg hp, List.countP_cons, List.countP_nil, pred_preserved]
      by_cases hm : d.min_id = m
      · have h1 : ¬ (some d.min_id ≠ some m ∧ m ∈ rest.map (fun d => d.min_id)) := by
          intro hc
          exact hc.1 (by rw [hm])
        have h2 : prev ≠ some m ∧ m ∈ (d :: rest).map (fun d => d.min_id) := by
          refine ⟨by rw [← hm]; exact hp, ?_⟩
          exact List.mem_map.mpr ⟨d, List.mem_cons_self d rest, hm⟩
        rw [if_neg h1, if_pos h2, if_pos (beq_iff_eq.mpr hm : (d.min_id == m) = true)]
      · have hbm : (d.min_id == m) = false := by
          rw [beq_eq_false_iff_ne]
          exact hm
        rw [hbm, if_neg Bool.false_ne_true, Nat.add_zero]
        have hiff : (some d.min_id ≠ some m ∧ m ∈ rest.map (fun d => d.min_id)) ↔
            (prev ≠ some m ∧ m ∈ (d :: rest).map (fun d => d.min_id)) := by
          constructor
          · rintro ⟨-, hmem⟩
            refine ⟨?_, ?_⟩
            · intro hc
              rcases List.mem_map.mp hmem with ⟨e, he, hem⟩
              have h3 : m ≤ d.min_id := hprev m hc d (List.mem_cons_self d rest)
              have h4 : d.min_id ≤ m := by
                rw [← hem]
                exact hd e he
              exact hm (le_antisymm h4 h3)
            · rcases List.mem_map.mp hmem with ⟨e, he, hem⟩
              exact List.mem_map.mpr ⟨e, List.mem_cons_of_mem d he, hem⟩
          · rintro ⟨hne, hmem⟩
            refine ⟨fun hc => hm (by injection hc), ?_⟩
            rcases List.mem_map.mp hmem with ⟨e, he, hem⟩
            rcases List.mem_cons.mp he with h' | h'
            · exact absurd (by rw [← hem, h']) hm
            · exact List.mem_map.mpr ⟨e, h', hem⟩
        by_cases hmem : some d.min_id ≠ some m ∧ m ∈ rest.map (fun d => d.min_id)
        · rw [if_pos hmem, if_pos (hiff.mp hmem)]
        · rw [if_neg hmem, if_neg (fun hc => hmem (hiff.mpr hc))]

theorem groupRows_ne_nil_of_key {t : Table} {k : List Val} {w : DBRow}
    (hw : w ∈ t) (hwk : w.cols = k) : groupRows t k ≠ [] := by
  intro h
  have : w ∈ groupRows t k := mem_groupRows.mpr ⟨hw, hwk⟩
  simp [h] at this

theorem minId_same_key {t : Table} (hid : (t.map (fun r => r.id)).Nodup)
    {k k' : List Val} (hk : groupRows t k ≠ []) (hk' : groupRows t k' ≠ [])
    (hmin : groupMinId t k = groupMinId t k') : k = k' := by
  rcases groupMinId_mem hk with ⟨s1, hs1, hs1id⟩
  rcases groupMinId_mem hk' with ⟨s2, hs2, hs2id⟩
  have hseq : s1 = s2 :=
    id_inj hid (mem_groupRows.mp hs1).1 (mem_groupRows.mp hs2).1
      (by rw [hs1id, hs2id, hmin])
  rw [← (mem_groupRows.mp hs1).2, hseq, (mem_groupRows.mp hs2).2]

theorem dupEntry_minId_determines_group {t : Table}
    (hid : (t.map (fun r => r.id)).Nodup) {d : DupEntry} (hd : d ∈ dupSelect t)
    {k : List Val} (hk : ∃ w ∈ t, w.cols = k)
    (hmin : d.min_id = groupMinId t k) : d.min_path = groupMinPath t k := by
  rcases mem_dupSelect.mp hd with ⟨r, hrt, hrne, hde⟩
  rcases hk with ⟨w, hwt, hwk⟩
  have hmin' : groupMinId t r.cols = groupMinId t k := by
    rw [← hmin, hde]
  have hcols : r.cols = k :=
    minId_same_key hid (groupRows_ne_nil hrt) (groupRows_ne_nil_of_key hwt hwk) hmin'
  rw [hde]
  show groupMinPath t r.cols = groupMinPath t k
  rw [hcols]

theorem dup_key_has_nonmin_row {t : Table}
    (hid : (t.map (fun r => r.id)).Nodup) {k : List Val}
    (hk : isDupKey t k = true) :
    ∃ r ∈ t, r.cols = k ∧ r.id ≠ groupMinId t k := by
  have hlen : 1 < (groupRows t k).length := of_decide_eq_true hk
  have hgsub : (groupRows t k).Sublist t := List.filter_sublist t
  have hgid : ((groupRows t k).map (fun r => r.id)).Nodup :=
    hid.sublist (hgsub.map (fun r => r.id))
  match hg : groupRows t k with
  | [] => rw [hg] at hlen; simp at hlen
  | [x] => rw [hg] at hlen; simp at hlen
  | x :: y :: rest =>
    rw [hg] at hgid
    have hxy : x.id ≠ y.id := by
      rw [List.map_cons, List.map_cons, List.nodup_cons] at hgid
      intro he
      exact hgid.1 (by rw [he]; exact List.mem_cons_self _ _)
    have hxg : x ∈ groupRows t k := by rw [hg]; exact List.mem_cons_self _ _
    have hyg : y ∈ groupRows t k := by
      rw [hg]; exact List.mem_cons_of_mem _ (List.mem_cons_self _ _)
    by_cases hx : x.id = groupMinId t k
    · refine ⟨y, (mem_groupRows.mp hyg).1, (mem_groupRows.mp hyg).2, ?_⟩
      intro hy
      exact hxy (by rw [hx, hy])
    · exact ⟨x, (mem_groupRows.mp hxg).1, (mem_groupRows.mp hxg).2, hx⟩

theorem dup_key_entry {t : Table}
    (hid : (t.map (fun r => r.id)).Nodup) {k : List Val}
    (hk : isDupKey t k = true) :
    ∃ d ∈ dupSelect t, d.min_id = groupMinId t k ∧ d.min_path = groupMinPath t k := by
  rcases dup_key_has_nonmin_row hid hk with ⟨r, hrt, hrk, hrne⟩
  refine ⟨DupEntry.mk (groupMinId t r.cols) r.id r.path (groupMinPath t r.cols),
    ?_, ?_, ?_⟩
  · exact mem_dupSelect.mpr ⟨r, hrt, by rw [hrk]; exact hrne, rfl⟩
  · show groupMinId t r.cols = groupMinId t k
    rw [hrk]
  · show groupMinPath t r.cols = groupMinPath t k
    rw [hrk]

/-- C3 amended. For a table with pairwise distinct ids, the audit CSV written
by `remove_duplicate_images` contains, for every duplicate group, exactly one
line with status "preserved"; that line carries the kept (minimum-id) row's
id, but its path column holds the minimum path of the group (`MIN(path)` over
the partition), not necessarily the kept row's own path. For every deleted
row (id differing from its group's minimum) the CSV contains one line with
status "removed" carrying that row's id and path together with the kept
row's id; rows belonging to no duplicate group are referenced by no line. -/
theorem audit_csv_spec (t : Table) (hid : (t.map (fun r => r.id)).Nodup) :
    (∀ k, isDupKey t k = true →
      (auditCSV t).countP
        (fun a => a.status == "preserved" && a.min_id == groupMinId t k) = 1) ∧
    (∀ k, (∃ w ∈ t, w.cols = k) → ∀ a ∈ auditCSV t, a.status = "preserved" →
      a.min_id = groupMinId t k →
      a = AuditLine.mk (groupMinId t k) (groupMinId t k) (groupMinPath t k)
        "preserved") ∧
    (∀ r ∈ t, r.id ≠ groupMinId t r.cols →
      AuditLine.mk (groupMinId t r.cols) r.id r.path "removed" ∈ auditCSV t) ∧
    (∀ a ∈ auditCSV t, a.status = "removed" →
      ∃ r ∈ t, r.id ≠ groupMinId t r.cols ∧
        a = AuditLine.mk (groupMinId t r.cols) r.id r.path "removed") ∧
    (∀ r ∈ t, groupRows t r.cols = [r] → ∀ a ∈ auditCSV t, a.rid ≠ r.id) := by
  have hperm : (duplicates t).Perm (dupSelect t) := sortByMinId_perm (dupSelect t)
  refine ⟨?_, ?_, ?_, ?_, ?_⟩
  · intro k hk
    have hcount := writeAudit_preserved_count (duplicates t) none (groupMinId t k)
      (sortByMinId_sorted (dupSelect t)) (fun p hp => by cases hp)
    rw [auditCSV, hcount]
    have hcond : (none : Option Nat) ≠ some (groupMinId t k) ∧
        groupMinId t k ∈ (duplicates t).map (fun d => d.min_id) := by
      refine ⟨fun hc => Option.noConfusion hc, ?_⟩
      rcases dup_key_entry hid hk with ⟨d, hd, hdm, -⟩
      exact List.mem_map.mpr ⟨d, hperm.mem_iff.mpr hd, hdm⟩
    rw [if_pos hcond]
  · intro k hkr a ha hst hmin
    rcases writeAudit_mem_shape ha with ⟨d, hdl, hae⟩ | ⟨d, hdl, hae⟩
    · have hd : d ∈ dupSelect t := hperm.mem_iff.mp hdl
      have hdm : d.min_id = groupMinId t k := by
        rw [← hmin, hae]
      have hdp : d.min_path = groupMinPath t k :=
        dupEntry_minId_determines_group hid hd hkr hdm
      rw [hae, hdm, hdp]
    · rw [hae] at hst
      have hst' : ("removed" : String) = "preserved" := hst
      exact absurd hst' (by decide)
  · intro r hr hrne
    have hd : DupEntry.mk (groupMinId t r.cols) r.id r.path (groupMinPath t r.cols) ∈
        dupSelect t :=
      mem_dupSelect.mpr ⟨r, hr, hrne, rfl⟩
    exact writeAudit_removed_mem (hperm.mem_iff.mpr hd)
  · intro a ha hst
    rcases writeAudit_mem_shape ha with ⟨d, hdl, hae⟩ | ⟨d, hdl, hae⟩
    · rw [hae] at hst
      have hst' : ("preserved" : String) = "removed" := hst
      exact absurd hst' (by decide)
    · have hd : d ∈ dupSelect t := hperm.mem_iff.mp hdl
      rcases mem_dupSelect.mp hd with ⟨r, hrt, hrne, hde⟩
      refine ⟨r, hrt, hrne, ?_⟩
      rw [hae, hde]
  · intro r hr hsing a ha hrid
    rcases writeAudit_mem_shape ha with ⟨d, hdl, hae⟩ | ⟨d, hdl, hae⟩
    · have hd : d ∈ dupSelect t := hperm.mem_iff.mp hdl
      rcases mem_dupSelect.mp hd with ⟨s, hst', hsne, hde⟩
      have hdm : d.min_id = groupMinId t s.cols := by rw [hde]
      have harid : a.rid = d.min_id := by rw [hae]
      have hmin_r : groupMinId t s.cols = r.id := by
        rw [← hdm, ← harid, hrid]
      rcases groupMinId_mem (groupRows_ne_nil hst') with ⟨u, hu, huid⟩
      have hur : u = r :=
        id_inj hid (mem_groupRows.mp hu).1 hr (by rw [huid, hmin_r])
      have hcols : r.cols = s.cols := by
        rw [← hur]
        exact (mem_groupRows.mp hu).2
      have hs_in : s ∈ groupRows t r.cols := by
        rw [hcols]
        exact mem_groupRows.mpr ⟨hst', rfl⟩
      rw [hsing] at hs_in
      rcases List.mem_singleton.mp hs_in with hsr
      apply hsne
      rw [hsr]
      exact (groupMinId_of_singleton hsing).symm
    · have hd : d ∈ dupSelect t := hperm.mem_iff.mp hdl
      rcases mem_dupSelect.mp hd with ⟨s, hst', hsne, hde⟩
      have harid : a.rid = s.id := by rw [hae, hde]
      have hsr : s = r := id_inj hid hst' hr (by rw [← harid, hrid])
      apply hsne
      rw [hsr]
      exact (groupMinId_of_singleton hsing).symm

/-- A duplicate pair in which the kept (minimum-id) row has the greater path. -/
def c3row1 : DBRow := DBRow.mk 1 "b.png" [Val.intV 7]

/-- The deleted row of the pair; its path is the minimum path of the group. -/
def c3row2 : DBRow := DBRow.mk 2 "a.png" [Val.intV 7]

/-- A two-row table forming one duplicate group. -/
def c3table : Table := [c3row1, c3row2]

/-- C3 counterexample. On `c3table` the audit CSV's only "preserved" line is
`(1, 1, "a.png")`: it carries the kept row's id 1 but the path "a.png" of the
deleted row (the group's minimum path), while the kept row's path is
"b.png" — no line identifies the kept row by its id and path together, so
the preserved line does not identify the kept row by its id and path as the
claim states. -/
theorem audit_preserved_line_wrong_path :
    auditCSV c3table =
      [AuditLine.mk 1 1 "a.png" "preserved", AuditLine.mk 1 2 "a.png" "removed"] ∧
    remove_duplicate_images c3table = [c3row1] ∧
    c3row1.path = "b.png" ∧
    (∀ a ∈ auditCSV c3table, ¬ (a.status = "preserved" ∧ a.path = "b.png")) := by
  refine ⟨by decide, by decide, rfl, by decide⟩

/-- Two rows differing only in the `model` column. -/
def exA : DBRow := DBRow.mk 1 "a.png" [Val.intV 1]

/-- The second of the two rows. -/
def exB : DBRow := DBRow.mk 2 "b.png" [Val.intV 2]

/-- A two-row table whose rows are neighbors along `model`. -/
def exTab2 : Table := [exA, exB]

/-- Parsed input rows duplicated in all columns except path. -/
def dupInput : List (String × List Val) := [("a", [Val.intV 1]), ("b", [Val.intV 1])]

/-- The table after inserting `dupInput` (the CSV snapshot). -/
def dupCsvT : Table := [DBRow.mk 1 "a" [Val.intV 1], DBRow.mk 2 "b" [Val.intV 1]]

/-- The table after duplicate removal. -/
def dupFinalT : Table := [DBRow.mk 1 "a" [Val.intV 1]]

theorem construct_database_keeps_min_id_per_class_witness :
    DBRow.mk 1 "a" [Val.intV 1] ∈ dupFinalT ↔
      (DBRow.mk 1 "a" [Val.intV 1]).id =
        groupMinId dupCsvT (DBRow.mk 1 "a" [Val.intV 1]).cols :=
  construct_database_keeps_min_id_per_class dupInput dupCsvT dupFinalT (by decide)
    (DBRow.mk 1 "a" [Val.intV 1]) (by decide)

theorem find_rows_returns_exactly_neighbors_witness :
    exB ∈ [exB] ↔
      exB ∈ exTab2 ∧ exB.id ≠ exA.id ∧ colAt exB "model" ≠ colAt exA "model" ∧
      ∀ q ∈ paramColumns, q ≠ "model" → colAt exB q = colAt exA q :=
  find_rows_returns_exactly_neighbors exTab2 1 "model" (by decide) exA [exB]
    (by decide) exB

theorem find_rows_neighbor_symmetric_witness :
    exB ∈ [exB] ↔ exA ∈ [exA] :=
  find_rows_neighbor_symmetric exTab2 1 2 "model" exA exB [exB] [exA]
    (by decide) (by decide)

theorem audit_csv_spec_witness :
    AuditLine.mk (groupMinId c3table c3row2.cols) c3row2.id c3row2.path "removed" ∈
      auditCSV c3table :=
  (audit_csv_spec c3table (by decide)).2.2.1 c3row2 (by decide) (by decide)

/-- Base parameter defaults for the witness. -/
def exBase : List (String × String) := [("Egr", "0.1"), ("Mgr", "0.2")]

/-- Job overrides for the witness: image `01` overrides `Mgr`. -/
def exJob : List (String × List (String × String)) := [("01", [("Mgr", "0.9")])]

/-- The row `combine_lists` assembles from the witness input. -/
def exRows : List (List Val) :=
  [[Val.textV "img.png", Val.textV "0.1", Val.textV "0.9", Val.intV 0]]

theorem combine_lists_value_spec_witness :
    (exRows.get? 0).bind (fun r => r.get? (1 + 1)) = some (Val.textV "0.9") :=
  combine_lists_value_spec ["img.png"] ["01"] exBase exJob exRows (by decide)
    0 "img.png" "01" (by decide) 1 "Mgr" "0.2" (by decide) [("Mgr", "0.9")] (by decide)

theorem construct_database_order_witness :
    insert_data_to_table dupInput [] = some dupCsvT ∧
      dupFinalT = remove_duplicate_images dupCsvT :=
  construct_database_order dupInput dupCsvT dupFinalT (by decide)

theorem path_unique_invariant_witness :
    (dupCsvT.map (fun r => r.path)).Nodup ∧
      ((remove_duplicate_images dupCsvT).map (fun r => r.path)).Nodup :=
  path_unique_invariant dupInput [] dupCsvT (by decide) List.nodup_nil

theorem remove_duplicate_images_frame_witness :
    (remove_duplicate_images exTab2).Sublist exTab2 ∧
      exA ∈ remove_duplicate_images exTab2 :=
  remove_duplicate_images_frame exTab2 exA (by decide) (by decide)

theorem export_row_missing_id_no_effect_witness :
    export_row_to_file exTab2 99 false = (exTab2, none, false) :=
  export_row_missing_id_no_effect exTab2 99 false (by decide)
